import Mathlib

set_option maxRecDepth 8000

/- Shallow embedding of the ingestion pipeline of the document-rag repository
   (an Express + LangChain RAG service).  JavaScript strings are modelled by
   Lean `String`/`List Char` (the sources only rely on ASCII behaviour), the
   network by explicit environments passed as arguments, and fallible code by
   `Option`/`Except`.  Randomized delays, rotating user agents and the Referer
   header do not influence any value returned by the code and are omitted;
   timestamps (`new Date().toISOString()`) are wall-clock reads and are
   likewise omitted from document metadata. -/

/-- Chars kept by the organisation slug, the regex class `[a-z0-9]` of
`src/utils/namespace.js`. -/
def isSlugChar (c : Char) : Bool := ('a' ≤ c && c ≤ 'z') || ('0' ≤ c && c ≤ '9')

/-- Collapses every run of the character `x` to a single occurrence.  Used to
model `replace(/X+/g, 'X')`-style regexes after every char of the class has
been mapped to `x`. -/
def collapseRuns (x : Char) : List Char → List Char
  | [] => []
  | [c] => [c]
  | c :: d :: rest =>
    if c = x ∧ d = x then collapseRuns x (d :: rest)
    else c :: collapseRuns x (d :: rest)

/-- Removes the longest suffix whose characters all satisfy `p`. -/
def dropTrailingWhile (p : Char → Bool) : List Char → List Char
  | [] => []
  | c :: rest =>
    match dropTrailingWhile p rest with
    | [] => if p c then [] else [c]
    | r => c :: r

/-- Removes the longest run of `p`-characters from both ends. -/
def trimEnds (p : Char → Bool) (l : List Char) : List Char :=
  dropTrailingWhile p (l.dropWhile p)

/-- JavaScript `String.prototype.trim()`. -/
def jsTrim (s : String) : String := ⟨trimEnds Char.isWhitespace s.data⟩

/-- `normalizeWhitespace` of src/utils/text.js:
`text.replace(/\s+/g, ' ').trim()`. -/
def normalizeWhitespace (s : String) : String :=
  ⟨trimEnds Char.isWhitespace
    (collapseRuns ' ' (s.data.map fun c => if c.isWhitespace then ' ' else c))⟩

/-- The organisation slug of `deriveNamespace` (src/utils/namespace.js):
`organisation.toLowerCase().replace(/[^a-z0-9]+/g, '-').replace(/^-+|-+$/g, '')`.
A run of non-`[a-z0-9]` characters becomes one hyphen (each such char is
mapped to `'-'` and runs of hyphens are then collapsed, which yields the same
string), and leading/trailing hyphens are trimmed. -/
def slugify (organisation : String) : String :=
  ⟨trimEnds (fun c => c == '-')
    (collapseRuns '-'
      ((organisation.data.map Char.toLower).map fun c =>
        if isSlugChar c then c else '-'))⟩

/-- `deriveNamespace` of src/utils/namespace.js (the identical copy in the
`unnamed` src/index.js variant has the same body).  `v && v.trim()` is truthy
exactly when the trimmed string is non-empty. -/
def deriveNamespace (namespaceValue organisation : String) : String :=
  if jsTrim namespaceValue ≠ "" then jsTrim namespaceValue
  else if jsTrim organisation ≠ "" then
    if slugify organisation ≠ "" then slugify organisation else "default"
  else "default"

/- ===================== URL model =====================
   The WHATWG `URL` platform builtin is an external collaborator.  It is
   modelled just deeply enough for the code under test: an absolute URL is
   `scheme://host[path][#hash]`; `new URL` on a string without a valid
   `scheme://` part throws, which the model renders as `none`.  Lower-casing
   of scheme/host and port handling are not modelled (all inputs appearing in
   this development are already canonical). -/

structure Url where
  scheme : List Char
  host : List Char
  path : List Char
  hash : List Char
  deriving DecidableEq

/-- The `href` of a parsed URL: hash serialized only when non-empty, matching
`URL.prototype.href`. -/
def Url.href (u : Url) : String :=
  ⟨u.scheme ++ ':' :: '/' :: '/' :: u.host ++ u.path ++
    (if u.hash = [] then [] else '#' :: u.hash)⟩

/-- The fragment of a `path#hash` remainder. -/
def hashOf : List Char → List Char
  | '#' :: h => h
  | _ => []

/-- Forbidden host code points of the WHATWG URL parser (the subset that
matters here: whitespace and host delimiters make `new URL` throw). -/
def validHostChar (c : Char) : Bool :=
  !c.isWhitespace && !(['@', '[', ']', '\\', '<', '>', '^', '|'].contains c)

/-- Parses an absolute URL; `none` models `new URL(s)` throwing `TypeError:
Invalid URL`.  An empty path serializes as `/` as the WHATWG parser does. -/
def parseUrlChars (cs : List Char) : Option Url :=
  let sp := cs.span (fun c => c != ':')
  match sp.2 with
  | ':' :: '/' :: '/' :: rest2 =>
    if sp.1 ≠ [] ∧ sp.1.all Char.isAlpha then
      let hp := rest2.span (fun c => c != '/' && c != '#' && c != '?')
      if hp.1 = [] ∨ ¬ hp.1.all validHostChar then none
      else
        let pq := hp.2.span (fun c => c != '#')
        let path := if pq.1.head? = some '/' then pq.1 else '/' :: pq.1
        some ⟨sp.1, hp.1, path, hashOf pq.2⟩
    else none
  | _ => none

/-- `new URL` on a whole string. -/
def parseUrl (s : String) : Option Url := parseUrlChars s.data

/-- The regex test `/^https?:\/\//i.test(s)` of `toAbsoluteUrl`. -/
def hasHttpScheme (s : String) : Bool :=
  List.isPrefixOf "http://".data (s.data.map Char.toLower) ||
  List.isPrefixOf "https://".data (s.data.map Char.toLower)

/-- `toAbsoluteUrl` of src/utils/text.js: empty / blank input gives `null`;
an input without an `http(s)://` scheme is retried with `https://` prefixed;
a parse failure is caught and gives `null`; otherwise the canonical `href`
is returned. -/
def toAbsoluteUrl (value : String) : Option String :=
  if value = "" then none
  else
    let trimmed := jsTrim value
    if trimmed = "" then none
    else if hasHttpScheme trimmed then (parseUrl trimmed).map Url.href
    else (parseUrl ("https://" ++ trimmed)).map Url.href

/-- Resolution of an `href` attribute against a base URL (`new URL(href,
baseUrl)`): absolute wins, then protocol-relative, root-relative, pure
fragments, and directory-relative references; dot-segment normalization is
not modelled. -/
def resolveHref (base : Url) (href : String) : Option Url :=
  match parseUrlChars href.data with
  | some u => some u
  | none =>
    match href.data with
    | '/' :: '/' :: rest => parseUrlChars (base.scheme ++ ':' :: '/' :: '/' :: rest)
    | '/' :: rest =>
      let pq := ('/' :: rest).span (fun c => c != '#')
      some ⟨base.scheme, base.host, pq.1, hashOf pq.2⟩
    | '#' :: rest => some { base with hash := rest }
    | [] => some base
    | other =>
      let pq := other.span (fun c => c != '#')
      some ⟨base.scheme, base.host,
        (base.path.reverse.dropWhile (fun c => c != '/')).reverse ++ pq.1,
        hashOf pq.2⟩

/- ===================== page / network model ===================== -/

/-- A fetched HTML page, abstracted to what the code inspects through the
markup-query collaborator (cheerio): the `href` attributes of its anchors in
document order, the text of its first `title` element and the visible body
text that remains once script/style/noscript/iframe/svg are removed. -/
structure Html where
  hrefs : List String
  rawTitle : String
  rawBody : String
  deriving DecidableEq

/-- The network and XML environment of one ingestion request.  `sitemapFetch`
is `fetch` with sitemap headers (`none` = network error or non-ok status),
`pageFetch` is `fetchWebsiteContent` (`none` = error or non-ok status, which
it turns into a thrown error), and `extractUrls` is the composition of the
external `fast-xml-parser` with `extractUrlsFromSitemap`, the pure XML-to-URL
extraction whose details no claim depends on. -/
structure Net where
  sitemapFetch : String → Option String
  pageFetch : String → Option Html
  extractUrls : String → List String

/-- `MIN_WEBSITE_LENGTH` of src/utils/website.js. -/
def MIN_WEBSITE_LENGTH : Nat := 200

/-- `MAX_WEBSITE_PAGES` (env default 200). -/
def MAX_WEBSITE_PAGES : Nat := 200

/-- `MAX_LINKS_PER_PAGE` (env default 50). -/
def MAX_LINKS_PER_PAGE : Nat := 50

/-- The accumulating pass of `extractLinks`: resolve each `href` against the
current page, keep only http/https links on the base host, strip fragments,
and dedupe preserving first-insertion order (a JS `Set` of `href` strings). -/
def linkFold (base : Url) (baseHost : List Char) (acc : List Url)
    (hrefs : List String) : List Url :=
  hrefs.foldl
    (fun acc href =>
      match resolveHref base href with
      | none => acc
      | some r =>
        if (r.scheme = "http".data ∨ r.scheme = "https".data) ∧ r.host = baseHost then
          let r' : Url := { r with hash := [] }
          if acc.contains r' then acc else acc ++ [r']
        else acc)
    acc

/-- `extractLinks` of src/utils/website.js: the filtered, deduped link list
capped at `MAX_LINKS_PER_PAGE`. -/
def extractLinks (html : Html) (base : Url) (baseHost : List Char) : List Url :=
  (linkFold base baseHost [] html.hrefs).take MAX_LINKS_PER_PAGE

/- ===================== sitemap resolver ===================== -/

/-- Whether `needle` occurs as a contiguous sublist. -/
def subListSearch (needle : List Char) : List Char → Bool
  | [] => needle.isEmpty
  | c :: rest => List.isPrefixOf needle (c :: rest) || subListSearch needle rest

/-- Substring test, modelling `String.prototype.includes`. -/
def containsSub (needle hay : String) : Bool := subListSearch needle.data hay.data

/-- The fixed candidate paths of `fetchSitemapUrls`. -/
def sitemapPaths : List String :=
  ["/sitemap.xml", "/sitemap_index.xml", "/sitemap-index.xml"]

/-- The candidate sitemap URLs: `new URL(path, base.origin + '/')`. -/
def sitemapCandidates (base : Url) : List String :=
  sitemapPaths.map fun p => Url.href ⟨base.scheme, base.host, p.data, []⟩

/-- The candidate loop of `fetchSitemapUrls`.  A failed fetch, an index with
no extractable nested sitemaps, or an extraction that yields zero URLs all
degrade to the next candidate; a non-empty URL list is returned capped at
`limit`.  Nested sitemaps are capped at 10 and individual nested fetch
failures are skipped. -/
def tryCandidates (net : Net) (limit : Nat) : List String → List String
  | [] => []
  | c :: rest =>
    match net.sitemapFetch c with
    | none => tryCandidates net limit rest
    | some xml =>
      if containsSub "sitemapindex" xml || containsSub "sitemap-index" xml then
        let nested := net.extractUrls xml
        if nested = [] then tryCandidates net limit rest
        else
          let allUrls := (nested.take 10).foldl
            (fun acc nu =>
              match net.sitemapFetch nu with
              | some nxml => acc ++ net.extractUrls nxml
              | none => acc)
            []
          if allUrls = [] then tryCandidates net limit rest
          else allUrls.take limit
      else
        let urls := net.extractUrls xml
        if urls = [] then tryCandidates net limit rest
        else urls.take limit

/-- `fetchSitemapUrls` of src/utils/website.js.  `const base = new
URL(startUrl)` sits outside the per-candidate `try`, so an unparseable start
URL throws out of the whole function, modelled as `Except.error`. -/
def fetchSitemapUrls (net : Net) (startUrl : String) (limit : Nat) :
    Except String (List String) :=
  match parseUrl startUrl with
  | none => Except.error "Invalid URL"
  | some base => Except.ok (tryCandidates net limit (sitemapCandidates base))

/- ===================== sequential downloader ===================== -/

/-- `downloadPagesSequentially` of src/utils/website.js: fetch the first
`limit` URLs in order; a per-URL failure is logged and skipped; the Referer
bookkeeping and inter-request delay have no effect on the returned pages. -/
def downloadPagesSequentially (net : Net) (urls : List String) (limit : Nat) :
    List (String × Html) :=
  (urls.take limit).filterMap fun u => (net.pageFetch u).map fun h => (u, h)

/- ===================== crawl engine ===================== -/

/-- The mutable state of the breadth-first loop of `crawlWebsite`: the FIFO
queue, the seen-set (a JS `Set` of canonical hrefs, kept here as an
insertion-ordered list) and the pages collected so far. -/
structure CrawlState where
  queue : List Url
  seen : List Url
  pages : List (Url × Html)
  deriving DecidableEq

/-- The enqueue fold of one crawl iteration: a link is pushed when it is
unseen and the queue plus collected pages stay below `limit * 2`. -/
def enqueueFold (seen' : List Url) (pages' : List (Url × Html)) (limit : Nat)
    (q : List Url) (links : List Url) : List Url :=
  links.foldl
    (fun q l =>
      if ¬ seen'.contains l ∧ q.length + pages'.length < limit * 2 then q ++ [l]
      else q)
    q

/-- One run of the `while` loop of `crawlWebsite`, structurally recursive on
a fuel bound on the number of iterations (the JS loop terminates because
every iteration dequeues and total enqueues are bounded; fuel large enough
never runs out).  Returns the collected pages together with the state at the
start of every executed iteration, which instruments the loop for invariant
statements.  Following the source: dequeue, skip if seen, mark seen, fetch
(failure abandons the URL), record the page, stop at `limit`, then enqueue
each extracted link that is unseen while `queue.length + pages.length <
limit * 2`. -/
def crawlLoop (net : Net) (limit : Nat) (baseHost : List Char) :
    Nat → CrawlState → List (Url × Html) × List CrawlState
  | 0, s => (s.pages, [])
  | fuel + 1, s =>
    match s.queue with
    | [] => (s.pages, [])
    | current :: rest =>
      if limit ≤ s.pages.length then (s.pages, [])
      else if s.seen.contains current then
        let r := crawlLoop net limit baseHost fuel { s with queue := rest }
        (r.1, s :: r.2)
      else
        let seen' := s.seen ++ [current]
        match net.pageFetch current.href with
        | none =>
          let r := crawlLoop net limit baseHost fuel ⟨rest, seen', s.pages⟩
          (r.1, s :: r.2)
        | some html =>
          let pages' := s.pages ++ [(current, html)]
          if limit ≤ pages'.length then (pages', [s])
          else
            let links := extractLinks html current baseHost
            let queue' := enqueueFold seen' pages' limit rest links
            let r := crawlLoop net limit baseHost fuel ⟨queue', seen', pages'⟩
            (r.1, s :: r.2)

/-- Fuel that exceeds any possible number of loop iterations: at most one
initial enqueue plus `MAX_LINKS_PER_PAGE` enqueues per collected page, and
at most `limit` pages are collected. -/
def crawlFuel (limit : Nat) : Nat := (limit + 1) * (MAX_LINKS_PER_PAGE + 1) + 1

/-- `crawlWebsite` of src/utils/website.js, seeded with the start URL; the
base host is the start URL's hostname. -/
def crawlWebsite (net : Net) (start : Url) (limit : Nat) : List (Url × Html) :=
  (crawlLoop net limit start.host (crawlFuel limit) ⟨[start], [], []⟩).1

/-- The per-iteration states of `crawlWebsite` (model instrumentation). -/
def crawlTrace (net : Net) (start : Url) (limit : Nat) : List CrawlState :=
  (crawlLoop net limit start.host (crawlFuel limit) ⟨[start], [], []⟩).2

/-- The start-URL normalisation of `collectWebsitePages`:
`sitemapUrls.includes(url) ? sitemapUrls : [url, ...sitemapUrls]`. -/
def normalizedStart (url : String) (sitemapUrls : List String) : List String :=
  if sitemapUrls.contains url then sitemapUrls else url :: sitemapUrls

/-- `collectWebsitePages` of src/utils/website.js: sitemap discovery first
(whose `new URL(startUrl)` throws on an unparseable URL, as does the
`crawlWebsite` fallback), then either the sequential download of the
discovered list (with the start URL prepended when absent) or the
breadth-first crawl. -/
def collectWebsitePages (net : Net) (url : String) (limit : Nat) :
    Except String (List (String × Html)) :=
  match parseUrl url with
  | none => Except.error "Invalid URL"
  | some base =>
    let su := tryCandidates net limit (sitemapCandidates base)
    if su.isEmpty then
      Except.ok ((crawlWebsite net base limit).map fun p => (p.1.href, p.2))
    else
      Except.ok (downloadPagesSequentially net (normalizedStart url su) limit)

/- ===================== chunk splitter ===================== -/

/-- The splitter configuration of src/utils/pinecone.js (`splitterConfig`). -/
def CHUNK_SIZE : Nat := 1000

/-- The overlap of `splitterConfig`. -/
def CHUNK_OVERLAP : Nat := 200

/-- Modelled from the spec: `RecursiveCharacterTextSplitter` is external
library code (`@langchain/textsplitters`); only its configuration lives in
this repository.  Following the spec's description of the Chunk Splitter, a
document is recursively divided into chunks no larger than `size`, each
chunk after the first overlapping the previous chunk's tail by `ovl`
characters (the preferential paragraph/sentence/word break points refine
where inside the window a cut lands, not the size/overlap bounds; the model
takes the hard character cut).  Structural recursion on a fuel that starts
at the document length, which can never be exhausted since every step
shortens the text by `size - ovl ≥ 1` characters. -/
def splitChunksF (size ovl : Nat) : Nat → List Char → List (List Char)
  | 0, s => [s]
  | fuel + 1, s =>
    if s.length ≤ size then [s]
    else s.take size :: splitChunksF size ovl fuel (s.drop (size - ovl))

/-- Splitting one text with adequate fuel. -/
def splitChunks (size ovl : Nat) (s : List Char) : List (List Char) :=
  splitChunksF size ovl s.length s

/-- De-duplicating reassembly: the first chunk whole, every later chunk with
its leading `ovl` overlap characters removed. -/
def reassemble (ovl : Nat) : List (List Char) → List Char
  | [] => []
  | c :: rest => c ++ (rest.map (List.drop ovl)).flatten

/- ===================== page parser and website ingestion ===================== -/

/-- A LangChain `Document` as this pipeline populates it: page content plus
the metadata envelope `{source, organisation, title}` (the `scrapedAt`
wall-clock timestamp is omitted from the model). -/
structure DocumentModel where
  pageContent : String
  source : String
  organisation : String
  title : String
  deriving DecidableEq

/-- The result of `parseHtmlToDocument`: the normalized title and body text
together with the built document. -/
structure ParsedPage where
  title : String
  bodyText : String
  doc : DocumentModel
  deriving DecidableEq

/-- `parseHtmlToDocument` of src/utils/website.js: normalized title falling
back to the URL when empty (`|| url`), normalized body text, organisation
defaulting to `"unknown"` (`organisation || 'unknown'`). -/
def parseHtmlToDocument (html : Html) (url : String) (organisation : String) :
    ParsedPage :=
  let title0 := normalizeWhitespace html.rawTitle
  let title := if title0 = "" then url else title0
  let bodyText := normalizeWhitespace html.rawBody
  ⟨title, bodyText,
    ⟨bodyText, url, (if organisation = "" then "unknown" else organisation), title⟩⟩

/-- The parse-and-filter loop of `ingestWebsite` (src/ingest.js): every page
is parsed; its document is kept only when the extracted body text reaches
`MIN_WEBSITE_LENGTH`. -/
def selectDocuments (pages : List (String × Html)) (organisation : String) :
    List DocumentModel :=
  pages.filterMap fun p =>
    let parsed := parseHtmlToDocument p.2 p.1 organisation
    if MIN_WEBSITE_LENGTH ≤ parsed.bodyText.length then some parsed.doc else none

/-- `textSplitter.splitDocuments`: each document's text is split with the
configured size and overlap; every chunk inherits the parent's metadata. -/
def splitDocuments (docs : List DocumentModel) : List DocumentModel :=
  (docs.map fun d =>
    (splitChunks CHUNK_SIZE CHUNK_OVERLAP d.pageContent.data).map
      fun c => { d with pageContent := ⟨c⟩ }).flatten

/-- The result record of `ingestWebsite`.  On the failure path the source
returns only `{success, error}`; the remaining fields are defaulted here. -/
structure WebsiteIngestResult where
  success : Bool
  error : String
  message : String
  chunks : Nat
  organisation : String
  nspace : String
  url : String
  pagesProcessed : Nat
  pagesIndexed : Nat
  deriving DecidableEq

/-- The `catch` branch of `ingestWebsite`. -/
def websiteFailure (e : String) : WebsiteIngestResult :=
  ⟨false, e, "", 0, "", "", "", 0, 0⟩

/-- `ingestWebsite` of src/ingest.js: URL normalisation (an invalid URL
throws before anything is fetched), page collection, the minimum-length
filter, chunking, and the success record carrying the normalized URL.  The
embedding/store upload is an external effect that does not alter the
returned counts and is not modelled. -/
def ingestWebsite (net : Net) (url organisation nspace : String) :
    WebsiteIngestResult :=
  match toAbsoluteUrl url with
  | none => websiteFailure "A valid URL is required to scrape website content."
  | some n =>
    match collectWebsitePages net n MAX_WEBSITE_PAGES with
    | Except.error e => websiteFailure e
    | Except.ok pages =>
      if pages.isEmpty then
        websiteFailure "No crawlable pages found for the provided website."
      else
        let docs := selectDocuments pages organisation
        if docs.isEmpty then
          websiteFailure "Scraped pages did not contain enough content to ingest."
        else
          { success := true, error := "",
            message := "Website scraped and ingested successfully",
            chunks := (splitDocuments docs).length,
            organisation := organisation, nspace := nspace, url := n,
            pagesProcessed := pages.length, pagesIndexed := docs.length }

/- ===================== the /ingest route ===================== -/

/-- One `/ingest` request, abstracted to what the handler's control flow
inspects: whether a file / a crawl URL was supplied, and whether the
corresponding ingestion call would report success. -/
structure IngestRequest where
  hasFile : Bool
  fileSucceeds : Bool
  hasUrl : Bool
  websiteSucceeds : Bool
  deriving DecidableEq

/-- What one `/ingest` call did: HTTP status, and whether each ingestion
stream was actually started. -/
structure IngestResponse where
  status : Nat
  fileRan : Bool
  websiteRan : Bool
  deriving DecidableEq

/-- The `app.post('/ingest')` handler (both src/index.js variants have the
same flow): 400 when neither input is present; document ingestion first,
returning 500 immediately when it fails; website ingestion afterwards,
returning 500 when it fails; 200 otherwise. -/
def ingestHandler (r : IngestRequest) : IngestResponse :=
  if ¬ r.hasFile ∧ ¬ r.hasUrl then ⟨400, false, false⟩
  else if r.hasFile ∧ ¬ r.fileSucceeds then ⟨500, true, false⟩
  else if r.hasUrl ∧ ¬ r.websiteSucceeds then ⟨500, r.hasFile, true⟩
  else ⟨200, r.hasFile, r.hasUrl⟩

/- ===================== concrete environments for witnesses ===================== -/

/-- A network where nothing is reachable. -/
def netEmpty : Net := ⟨fun _ => none, fun _ => none, fun _ => []⟩

/-- A page with a 250-character body and no links. -/
def htmlBig : Html := ⟨[], "T", ⟨List.replicate 250 'a'⟩⟩

/-- A page with a 150-character body. -/
def htmlSmall : Html := ⟨[], "T", ⟨List.replicate 150 'a'⟩⟩

/-- A page with one root-relative link and a 250-character body. -/
def htmlLinked : Html := ⟨["/b"], "T", ⟨List.replicate 250 'a'⟩⟩

/-- A site whose sitemap lists three URLs and serves every page. -/
def netSite : Net :=
  ⟨fun s => if s = "https://e.com/sitemap.xml" then some "<urlset/>" else none,
   fun _ => some htmlBig,
   fun x => if x = "<urlset/>" then
       ["https://e.com/a", "https://e.com/b", "https://e.com/c"] else []⟩

/-- A site with no sitemap whose pages all succeed. -/
def netCrawl : Net := ⟨fun _ => none, fun _ => some htmlLinked, fun _ => []⟩

/-- The parsed form of `https://e.com/`. -/
def baseE : Url := ⟨"https".data, "e.com".data, "/".data, []⟩

/- ===================== generic list lemmas ===================== -/

/-- The head of a run-collapsed list is the original head. -/
theorem head_collapseRuns (x : Char) : ∀ c rest,
    (collapseRuns x (c :: rest)).head? = some c
  | _, [] => rfl
  | c, d :: rest => by
    rw [collapseRuns]
    split
    · next h => rw [head_collapseRuns x d rest, h.1, h.2]
    · rfl

/-- Run-collapsing only keeps original characters. -/
theorem mem_collapseRuns (x : Char) : ∀ l c, c ∈ collapseRuns x l → c ∈ l
  | [], c, h => by simp [collapseRuns] at h
  | [_], c, h => by simpa [collapseRuns] using h
  | a :: b :: rest, c, h => by
    rw [collapseRuns] at h
    split at h
    · exact List.mem_cons_of_mem _ (mem_collapseRuns x (b :: rest) c h)
    · rcases List.mem_cons.mp h with h1 | h2
      · exact h1 ▸ List.mem_cons_self _ _
      · exact List.mem_cons_of_mem _ (mem_collapseRuns x (b :: rest) c h2)

/-- After run-collapsing, no two adjacent characters both equal `x`. -/
theorem chain'_collapseRuns (x : Char) : ∀ l,
    List.Chain' (fun a b => ¬(a = x ∧ b = x)) (collapseRuns x l)
  | [] => by simp [collapseRuns]
  | [_] => by simp [collapseRuns]
  | a :: b :: rest => by
    rw [collapseRuns]
    split
    · exact chain'_collapseRuns x (b :: rest)
    · next hab =>
      refine List.chain'_cons'.mpr ⟨?_, chain'_collapseRuns x (b :: rest)⟩
      intro y hy
      rw [head_collapseRuns] at hy
      cases hy
      exact hab

/-- `dropTrailingWhile` returns a front part of its input. -/
theorem dropTrailingWhile_isPre (p : Char → Bool) : ∀ l,
    dropTrailingWhile p l <+: l
  | [] => ⟨[], rfl⟩
  | c :: rest => by
    cases hr : dropTrailingWhile p rest with
    | nil =>
      by_cases hpc : p c = true
      · rw [show dropTrailingWhile p (c :: rest) = [] by
          simp [dropTrailingWhile, hr, hpc]]
        exact ⟨c :: rest, rfl⟩
      · rw [show dropTrailingWhile p (c :: rest) = [c] by
          simp [dropTrailingWhile, hr, hpc]]
        exact ⟨rest, rfl⟩
    | cons d ds =>
      rw [show dropTrailingWhile p (c :: rest) = c :: d :: ds by
        simp [dropTrailingWhile, hr]]
      obtain ⟨t, ht⟩ := hr ▸ dropTrailingWhile_isPre p rest
      exact ⟨t, by rw [List.cons_append, ht]⟩

/-- The last character surviving `dropTrailingWhile` falsifies `p`. -/
theorem getLast_dropTrailingWhile (p : Char → Bool) : ∀ l c,
    (dropTrailingWhile p l).getLast? = some c → p c = false
  | [], c, h => by simp [dropTrailingWhile] at h
  | a :: rest, c, h => by
    cases hr : dropTrailingWhile p rest with
    | nil =>
      by_cases hpa : p a = true
      · rw [show dropTrailingWhile p (a :: rest) = [] by
          simp [dropTrailingWhile, hr, hpa]] at h
        simp at h
      · rw [show dropTrailingWhile p (a :: rest) = [a] by
          simp [dropTrailingWhile, hr, hpa]] at h
        simp only [List.getLast?_singleton, Option.some.injEq] at h
        simp only [Bool.not_eq_true] at hpa
        exact h ▸ hpa
    | cons d ds =>
      rw [show dropTrailingWhile p (a :: rest) = a :: d :: ds by
        simp [dropTrailingWhile, hr], List.getLast?_cons_cons] at h
      exact getLast_dropTrailingWhile p rest c (hr ▸ h)

/-- A chain restricted to the front part of an append is still a chain. -/
theorem chain'_take_left {α : Type} {R : α → α → Prop} : ∀ (l₁ l₂ : List α),
    List.Chain' R (l₁ ++ l₂) → List.Chain' R l₁
  | [], _, _ => List.chain'_nil
  | [a], _, _ => List.chain'_singleton a
  | a :: b :: l, l₂, h => by
    rw [List.cons_append, List.cons_append, List.chain'_cons] at h
    refine List.chain'_cons.mpr ⟨h.1, chain'_take_left (b :: l) l₂ ?_⟩
    rw [List.cons_append]
    exact h.2

/-- A chain holds on every front part of the list. -/
theorem chain'_isPre {α : Type} {R : α → α → Prop} {l₁ l₂ : List α}
    (h : l₁ <+: l₂) (hc : List.Chain' R l₂) : List.Chain' R l₁ := by
  obtain ⟨t, rfl⟩ := h
  exact chain'_take_left l₁ t hc

/-- A non-empty front part has the same head. -/
theorem isPre_head {l₁ l₂ : List Char} (h : l₁ <+: l₂) (hne : l₁ ≠ []) :
    l₁.head? = l₂.head? := by
  obtain ⟨t, rfl⟩ := h
  cases l₁ with
  | nil => exact absurd rfl hne
  | cons a as => rfl

/-- The head surviving `List.dropWhile` falsifies `p`. -/
theorem head_dropWhile_false (p : Char → Bool) : ∀ (l : List Char) c,
    (l.dropWhile p).head? = some c → p c = false
  | [], c, h => by simp [List.dropWhile] at h
  | a :: rest, c, h => by
    rw [List.dropWhile_cons] at h
    split at h
    · exact head_dropWhile_false p rest c h
    · next hpa =>
      cases h
      exact Bool.of_not_eq_true hpa

/- ===================== C1 lemmas ===================== -/

/-- Well-formedness of an organisation slug: only `[a-z0-9]` characters and
hyphens, no leading or trailing hyphen, no two adjacent hyphens. -/
def slugOk (s : String) : Prop :=
  (∀ c ∈ s.data, isSlugChar c = true ∨ c = '-') ∧
  (∀ c, s.data.head? = some c → c ≠ '-') ∧
  (∀ c, s.data.getLast? = some c → c ≠ '-') ∧
  List.Chain' (fun a b => ¬(a = '-' ∧ b = '-')) s.data

/-- Every slug the resolver builds is well-formed. -/
theorem slugOk_slugify (org : String) : slugOk (slugify org) := by
  unfold slugify slugOk trimEnds
  set mapped := (org.data.map Char.toLower).map
    (fun c => if isSlugChar c then c else '-') with hmapped
  set collapsed := collapseRuns '-' mapped with hcoll
  refine ⟨?_, ?_, ?_, ?_⟩
  · intro c hc
    have h1 : c ∈ collapsed :=
      (List.dropWhile_suffix _).subset
        ((dropTrailingWhile_isPre _ _).subset hc)
    have h2 : c ∈ mapped := mem_collapseRuns _ _ _ h1
    obtain ⟨a, _, ha⟩ := List.mem_map.mp h2
    by_cases hs : isSlugChar a
    · left; rw [← ha]; simp [hs]
    · right; rw [← ha]; simp [hs]
  · intro c hc
    have hne : dropTrailingWhile (fun c => c == '-')
        (collapsed.dropWhile (fun c => c == '-')) ≠ [] := by
      intro hnil
      rw [hnil] at hc
      exact Option.noConfusion hc
    rw [isPre_head (dropTrailingWhile_isPre _ _) hne] at hc
    have := head_dropWhile_false _ _ _ hc
    simpa using this
  · intro c hc
    have := getLast_dropTrailingWhile _ _ _ hc
    simpa using this
  · exact chain'_isPre (dropTrailingWhile_isPre _ _)
      ((chain'_collapseRuns '-' mapped).suffix (List.dropWhile_suffix _))

/-- C1 (amended): the namespace resolver returns the explicit namespace
trimmed (not verbatim) whenever it is non-blank after trimming; otherwise,
for a non-blank organisation whose slug (lower-cased, every run of
non-`[a-z0-9]` collapsed to one hyphen, leading/trailing hyphens trimmed) is
non-empty, that slug; otherwise the literal `"default"`.  The result is
always non-empty, the slug is well-formed, `"Acme Corp!!"` resolves to
`"acme-corp"`, and two blank inputs resolve to `"default"`. -/
theorem deriveNamespace_resolution (ns org : String) :
    deriveNamespace ns org ≠ "" ∧
    (jsTrim ns ≠ "" → deriveNamespace ns org = jsTrim ns) ∧
    (jsTrim ns = "" → jsTrim org ≠ "" → slugify org ≠ "" →
      deriveNamespace ns org = slugify org) ∧
    (jsTrim ns = "" → slugify org = "" → deriveNamespace ns org = "default") ∧
    slugOk (slugify org) ∧
    deriveNamespace "" "Acme Corp!!" = "acme-corp" ∧
    deriveNamespace "" "" = "default" := by
  refine ⟨?_, ?_, ?_, ?_, slugOk_slugify org, by decide, by decide⟩
  · unfold deriveNamespace
    split_ifs <;> simp_all
  · intro h
    unfold deriveNamespace
    simp [h]
  · intro h1 h2 h3
    unfold deriveNamespace
    simp [h1, h2, h3]
  · intro h1 h2
    unfold deriveNamespace
    simp [h1, h2]

/-- C1 counterexample: `" foo "` is non-blank after trimming, yet the
resolver returns `"foo"`, not the explicit namespace verbatim. -/
theorem deriveNamespace_not_verbatim :
    jsTrim " foo " ≠ "" ∧ deriveNamespace " foo " "" ≠ " foo " ∧
    deriveNamespace " foo " "" = "foo" := by decide

/-- C1 witness. -/
theorem deriveNamespace_resolution_inst :
    deriveNamespace " team " "Acme" = "team" :=
  (deriveNamespace_resolution " team " "Acme").2.1 (by decide)

/- ===================== C2 ===================== -/

/-- C2 (amended): within one `/ingest` call carrying both a file and a URL,
the file stream always runs first and its outcome is unaffected by a website
failure (a website failure is only reported after file ingestion completed
and is not rolled back); the website stream, however, runs exactly when the
file stream succeeded — a file-ingestion failure returns a 500 response
before website ingestion starts. -/
theorem ingest_streams_order (r : IngestRequest) :
    r.hasFile = true → r.hasUrl = true →
    (ingestHandler r).fileRan = true ∧
    (ingestHandler r).websiteRan = r.fileSucceeds := by
  intro hf hu
  obtain ⟨f, fs, u, ws⟩ := r
  cases hf
  cases hu
  cases fs <;> cases ws <;> simp [ingestHandler]

/-- C2 counterexample: a request with a failing file upload and a website
URL; the handler returns 500 from the file stream and the website ingestion
stream never runs, contradicting the claimed independence. -/
theorem ingest_file_failure_blocks_website :
    (ingestHandler ⟨true, false, true, true⟩).websiteRan = false ∧
    (ingestHandler ⟨true, false, true, true⟩).status = 500 := by decide

/-- C2 witness. -/
theorem ingest_streams_order_inst :
    (ingestHandler ⟨true, true, true, false⟩).fileRan = true ∧
    (ingestHandler ⟨true, true, true, false⟩).websiteRan = true :=
  ingest_streams_order ⟨true, true, true, false⟩ rfl rfl

/- ===================== crawl loop lemmas ===================== -/

/-- Every queue element after enqueueing is an old element or a link. -/
theorem enqueueFold_mem (seen' : List Url) (pages' : List (Url × Html))
    (limit : Nat) : ∀ (links q : List Url) (l : Url),
    l ∈ enqueueFold seen' pages' limit q links → l ∈ q ∨ l ∈ links
  | [], q, l, h => Or.inl h
  | lk :: links, q, l, h => by
    rw [enqueueFold, List.foldl_cons] at h
    rcases enqueueFold_mem seen' pages' limit links _ l h with h1 | h1
    · split at h1
      · rcases List.mem_append.mp h1 with h2 | h2
        · exact Or.inl h2
        · have he : l = lk := by simpa using h2
          exact Or.inr (he ▸ List.mem_cons_self lk links)
      · exact Or.inl h1
    · exact Or.inr (List.mem_cons_of_mem _ h1)

/-- Enqueueing preserves the `2 × limit` bound on queue plus pages. -/
theorem enqueueFold_length (seen' : List Url) (pages' : List (Url × Html))
    (limit : Nat) : ∀ (links q : List Url),
    q.length + pages'.length ≤ limit * 2 →
    (enqueueFold seen' pages' limit q links).length + pages'.length ≤ limit * 2
  | [], _, h => h
  | lk :: links, q, h => by
    rw [enqueueFold, List.foldl_cons]
    refine enqueueFold_length seen' pages' limit links _ ?_
    split
    · next hc =>
      have h2 := hc.2
      simp only [List.length_append, List.length_singleton]
      omega
    · exact h

/-- `List.contains` agrees with membership (decidable equality is lawful). -/
theorem contains_mem {α : Type} [DecidableEq α] {l : List α} {a : α} :
    l.contains a = true ↔ a ∈ l := by
  simp [List.contains, List.elem_iff]

/-- Appending one fresh element keeps a list duplicate-free. -/
theorem nodup_append_single {α : Type} (l : List α) (a : α)
    (h1 : l.Nodup) (h2 : a ∉ l) : (l ++ [a]).Nodup := by
  rw [List.nodup_append]
  exact ⟨h1, List.nodup_singleton a,
    fun x hx hxa => by
      have : x = a := by simpa using hxa
      exact h2 (this ▸ hx)⟩

/-- The link fold only adds links on the base host. -/
theorem linkFold_host (base : Url) (bh : List Char) : ∀ (hrefs : List String)
    (acc : List Url), (∀ u ∈ acc, u.host = bh) →
    ∀ u ∈ linkFold base bh acc hrefs, u.host = bh
  | [], _, hacc, u, hu => hacc u hu
  | href :: hrefs, acc, hacc, u, hu => by
    rw [linkFold, List.foldl_cons] at hu
    refine linkFold_host base bh hrefs _ ?_ u hu
    cases hres : resolveHref base href with
    | none => simpa [hres] using hacc
    | some r =>
      simp only [hres]
      split
      · next hcond =>
        split
        · exact hacc
        · intro v hv
          rcases List.mem_append.mp hv with h1 | h1
          · exact hacc v h1
          · have hv2 : v = { r with hash := [] } := by simpa using h1
            rw [hv2]
            exact hcond.2
      · exact hacc

/-- Every extracted link is on the base host. -/
theorem extractLinks_host (html : Html) (base : Url) (bh : List Char) :
    ∀ u ∈ extractLinks html base bh, u.host = bh := by
  intro u hu
  exact linkFold_host base bh html.hrefs [] (by simp) u
    (List.take_subset _ _ hu)

/-- The crawl loop never collects more pages than `limit`. -/
theorem crawlLoop_pages_le (net : Net) (limit : Nat) (bh : List Char) :
    ∀ (fuel : Nat) (s : CrawlState), s.pages.length ≤ limit →
    (crawlLoop net limit bh fuel s).1.length ≤ limit
  | 0, _, h => h
  | fuel + 1, s, h => by
    obtain ⟨q, seen, pages⟩ := s
    cases q with
    | nil => exact h
    | cons current rest =>
      simp only [crawlLoop]
      split
      · exact h
      · next h1 =>
        split
        · exact crawlLoop_pages_le net limit bh fuel _ h
        · cases hpf : net.pageFetch current.href with
          | none =>
            simp only [hpf]
            exact crawlLoop_pages_le net limit bh fuel _ h
          | some html =>
            simp only [hpf]
            split
            · simp only [List.length_append, List.length_singleton]
              omega
            · refine crawlLoop_pages_le net limit bh fuel _ ?_
              simp only [List.length_append, List.length_singleton]
              omega

/-- Main invariant of the crawl loop: pages stay duplicate-free and on the
base host, provided the queue is on the base host and every collected page
is already in the seen-set. -/
theorem crawlLoop_host_nodup (net : Net) (limit : Nat) (bh : List Char) :
    ∀ (fuel : Nat) (s : CrawlState),
    (∀ u ∈ s.queue, u.host = bh) →
    (∀ p ∈ s.pages, p.1.host = bh) →
    (s.pages.map Prod.fst).Nodup →
    (∀ p ∈ s.pages, p.1 ∈ s.seen) →
    ((crawlLoop net limit bh fuel s).1.map Prod.fst).Nodup ∧
    (∀ p ∈ (crawlLoop net limit bh fuel s).1, p.1.host = bh)
  | 0, _, _, hpages, hnd, _ => ⟨hnd, hpages⟩
  | fuel + 1, s, hqueue, hpages, hnd, hseen => by
    obtain ⟨q, seen, pages⟩ := s
    cases q with
    | nil => exact ⟨hnd, hpages⟩
    | cons current rest =>
      have hqrest : ∀ u ∈ rest, u.host = bh :=
        fun u hu => hqueue u (List.mem_cons_of_mem _ hu)
      have hcur : current.host = bh := hqueue current (List.mem_cons_self _ _)
      simp only [crawlLoop]
      split
      · exact ⟨hnd, hpages⟩
      · next hlim =>
        split
        · exact crawlLoop_host_nodup net limit bh fuel _ hqrest hpages hnd hseen
        · next hsk =>
          have hcns : current ∉ seen := fun hmem => hsk (contains_mem.mpr hmem)
          have hcnp : current ∉ pages.map Prod.fst := by
            intro hmem
            obtain ⟨p, hp, hp1⟩ := List.mem_map.mp hmem
            exact hcns (hp1 ▸ hseen p hp)
          have hnd' : ∀ h : Html, ((pages ++ [(current, h)]).map Prod.fst).Nodup := by
            intro h
            rw [List.map_append]
            exact nodup_append_single _ _ hnd (by simpa using hcnp)
          cases hpf : net.pageFetch current.href with
          | none =>
            simp only [hpf]
            refine crawlLoop_host_nodup net limit bh fuel _ hqrest hpages hnd ?_
            exact fun p hp => List.mem_append_left _ (hseen p hp)
          | some html =>
            simp only [hpf]
            have hpages' : ∀ p ∈ pages ++ [(current, html)], p.1.host = bh := by
              intro p hp
              rcases List.mem_append.mp hp with h1 | h1
              · exact hpages p h1
              · have : p = (current, html) := by simpa using h1
                rw [this]
                exact hcur
            split
            · exact ⟨hnd' html, hpages'⟩
            · refine crawlLoop_host_nodup net limit bh fuel _ ?_ hpages' (hnd' html) ?_
              · intro u hu
                rcases enqueueFold_mem _ _ _ _ _ u hu with h1 | h1
                · exact hqrest u h1
                · exact extractLinks_host html current bh u h1
              · intro p hp
                rcases List.mem_append.mp hp with h1 | h1
                · exact List.mem_append_left _ (hseen p h1)
                · have : p = (current, html) := by simpa using h1
                  rw [this]
                  exact List.mem_append_right _ (List.mem_singleton.mpr rfl)

/-- The loop invariant used for the `2 × limit` bound: either the bound
already holds, or the loop has not collected anything yet and the queue
still only holds the seed. -/
def crawlInv (limit : Nat) (s : CrawlState) : Prop :=
  s.queue.length + s.pages.length ≤ limit * 2 ∨
  (s.queue.length ≤ 1 ∧ s.pages = [])

/-- Every state at which the crawl loop body executes satisfies the
`queue + pages ≤ 2 × limit` bound. -/
theorem crawlLoop_trace_bound (net : Net) (limit : Nat) (bh : List Char) :
    ∀ (fuel : Nat) (s : CrawlState), crawlInv limit s →
    ∀ t ∈ (crawlLoop net limit bh fuel s).2,
      t.queue.length + t.pages.length ≤ limit * 2
  | 0, _, _, t, ht => by simp [crawlLoop] at ht
  | fuel + 1, s, hinv, t, ht => by
    obtain ⟨q, seen, pages⟩ := s
    cases q with
    | nil => simp [crawlLoop] at ht
    | cons current rest =>
      have hres : ∀ st : CrawlState, crawlInv limit st →
          t ∈ (crawlLoop net limit bh fuel st).2 →
          t.queue.length + t.pages.length ≤ limit * 2 :=
        fun st h1 h2 => crawlLoop_trace_bound net limit bh fuel st h1 t h2
      have hskipinv : ∀ sn : List Url, crawlInv limit (CrawlState.mk rest sn pages) := by
        intro sn
        rcases hinv with h2 | h2
        · left
          simp only [List.length_cons] at h2
          show rest.length + pages.length ≤ limit * 2
          omega
        · right
          simp only [List.length_cons] at h2
          refine ⟨?_, h2.2⟩
          show rest.length ≤ 1
          omega
      cases hpf : net.pageFetch current.href with
      | none =>
        simp only [crawlLoop, hpf] at ht
        split at ht
        · simp at ht
        · next hlim =>
          have hlim' : pages.length < limit := Nat.lt_of_not_le hlim
          have hself : (limit * 2) ≥ (current :: rest).length + pages.length := by
            rcases hinv with h1 | h1
            · exact h1
            · simp only [List.length_cons] at h1 ⊢
              omega
          split at ht
          · rcases List.mem_cons.mp ht with h1 | h1
            · rw [h1]
              exact hself
            · exact hres _ (hskipinv _) h1
          · rcases List.mem_cons.mp ht with h1 | h1
            · rw [h1]
              exact hself
            · exact hres _ (hskipinv _) h1
      | some html =>
        simp only [crawlLoop, hpf] at ht
        split at ht
        · simp at ht
        · next hlim =>
          have hlim' : pages.length < limit := Nat.lt_of_not_le hlim
          have hself : (limit * 2) ≥ (current :: rest).length + pages.length := by
            rcases hinv with h1 | h1
            · exact h1
            · simp only [List.length_cons] at h1 ⊢
              omega
          split at ht
          · rcases List.mem_cons.mp ht with h1 | h1
            · rw [h1]
              exact hself
            · exact hres _ (hskipinv _) h1
          · split at ht
            · rcases List.mem_singleton.mp ht with h1
              rw [h1]
              exact hself
            · rcases List.mem_cons.mp ht with h1 | h1
              · rw [h1]
                exact hself
              · refine hres _ ?_ h1
                left
                have hstart : rest.length + (pages ++ [(current, html)]).length ≤
                    limit * 2 := by
                  rcases hinv with h2 | h2
                  · simp only [List.length_cons] at h2
                    simp only [List.length_append, List.length_singleton]
                    omega
                  · simp only [List.length_cons] at h2
                    simp only [List.length_append, List.length_singleton, h2.2,
                      List.length_nil]
                    omega
                exact enqueueFold_length _ _ _ _ _ hstart

/- ===================== C6 / C7 / C8 ===================== -/

/-- C6: on the crawl-engine fallback, no URL appears twice in the returned
fetched-page list, and the hostname of every fetched URL equals the hostname
of the start URL. -/
theorem crawl_nodup_same_host (net : Net) (start : Url) (limit : Nat) :
    ((crawlWebsite net start limit).map Prod.fst).Nodup ∧
    (∀ p ∈ crawlWebsite net start limit, p.1.host = start.host) := by
  refine crawlLoop_host_nodup net limit start.host (crawlFuel limit) ⟨[start], [], []⟩
    ?_ ?_ ?_ ?_
  · intro u hu
    rw [List.mem_singleton.mp hu]
  · intro p hp
    simp at hp
  · simp
  · intro p hp
    simp at hp

/-- C6 witness: the page fetched by a concrete crawl is on the start host. -/
theorem crawl_nodup_same_host_inst :
    (baseE, htmlLinked).1.host = baseE.host :=
  (crawl_nodup_same_host netCrawl baseE 1).2 (baseE, htmlLinked) (by decide)

/-- C7: at every executed iteration of the breadth-first loop, the crawl
queue's size plus the number of already-fetched pages is at most
`2 × limit`; a link is enqueued only while that combined size is below
`2 × limit`. -/
theorem crawl_queue_bound (net : Net) (start : Url) (limit : Nat) :
    ∀ t ∈ crawlTrace net start limit,
      t.queue.length + t.pages.length ≤ limit * 2 := by
  refine crawlLoop_trace_bound net limit start.host (crawlFuel limit)
    ⟨[start], [], []⟩ ?_
  right
  exact ⟨by simp, rfl⟩

/-- C7 witness: the initial iteration of a concrete crawl. -/
theorem crawl_queue_bound_inst :
    (CrawlState.mk [baseE] [] []).queue.length +
      (CrawlState.mk [baseE] [] []).pages.length ≤ 1 * 2 :=
  crawl_queue_bound netCrawl baseE 1 ⟨[baseE], [], []⟩ (by decide)

/-- C8: on both the sitemap-download path and the crawl-fallback path, the
number of fetched pages returned never exceeds the page limit. -/
theorem fetched_pages_le_limit (net : Net) (urls : List String) (start : Url)
    (limit : Nat) :
    (downloadPagesSequentially net urls limit).length ≤ limit ∧
    (crawlWebsite net start limit).length ≤ limit := by
  constructor
  · calc (downloadPagesSequentially net urls limit).length
        ≤ (urls.take limit).length := List.length_filterMap_le _ _
      _ ≤ limit := List.length_take_le _ _
  · exact crawlLoop_pages_le net limit start.host (crawlFuel limit)
      ⟨[start], [], []⟩ (by simp)

/- ===================== C5 ===================== -/

/-- Whatever the network and XML environment do, the candidate loop returns
at most `limit` URLs. -/
theorem tryCandidates_le (net : Net) (limit : Nat) : ∀ cands : List String,
    (tryCandidates net limit cands).length ≤ limit
  | [] => by simp [tryCandidates]
  | c :: rest => by
    cases hsf : net.sitemapFetch c with
    | none =>
      simp only [tryCandidates, hsf]
      exact tryCandidates_le net limit rest
    | some xml =>
      simp only [tryCandidates, hsf]
      split
      · split
        · exact tryCandidates_le net limit rest
        · split
          · exact tryCandidates_le net limit rest
          · exact List.length_take_le _ _
      · split
        · exact tryCandidates_le net limit rest
        · exact List.length_take_le _ _

/-- C5 (amended): for every start URL that parses as a URL, the sitemap
resolver never throws: it returns an ordered URL list capped at the limit
(possibly empty), every fetch or parse failure degrading to the next
candidate path or the empty list.  (For an unparseable start URL the initial
`new URL(startUrl)` sits outside the per-candidate `try` and throws before
any candidate is tried.) -/
theorem fetchSitemapUrls_capped (net : Net) (startUrl : String) (limit : Nat)
    (base : Url) (h : parseUrl startUrl = some base) :
    ∃ l, fetchSitemapUrls net startUrl limit = Except.ok l ∧
      l.length ≤ limit := by
  refine ⟨tryCandidates net limit (sitemapCandidates base), ?_,
    tryCandidates_le net limit _⟩
  simp [fetchSitemapUrls, h]

/-- C5 counterexample: on the start URL `"not a url"` the resolver throws
(`new URL` raises before the candidate loop), so it does not return a list
for every start URL. -/
theorem fetchSitemapUrls_throws_on_invalid :
    fetchSitemapUrls netEmpty "not a url" 5 = Except.error "Invalid URL" := rfl

/-- C5 witness. -/
theorem fetchSitemapUrls_capped_inst :
    ∃ l, fetchSitemapUrls netEmpty "https://e.com/" 7 = Except.ok l ∧
      l.length ≤ 7 :=
  fetchSitemapUrls_capped netEmpty "https://e.com/" 7 baseE (by decide)

/- ===================== C3 ===================== -/

/-- When every fetch succeeds, the sequential downloader returns exactly the
first `limit` input URLs, in order. -/
theorem download_all_success (net : Net) (limit : Nat)
    (hfetch : ∀ u : String, (net.pageFetch u).isSome = true)
    (urls : List String) :
    (downloadPagesSequentially net urls limit).map Prod.fst =
      urls.take limit := by
  unfold downloadPagesSequentially
  generalize urls.take limit = l
  induction l with
  | nil => simp
  | cons u us ih =>
    simp only [List.filterMap_cons]
    cases hf : net.pageFetch u with
    | none =>
      have := hfetch u
      rw [hf] at this
      simp at this
    | some h => simp [ih]

/-- C3 (amended): when sitemap discovery yields a non-empty URL list, the
downloader is given the discovered list in sitemap order with the start URL
prepended when it is absent from that list, truncated to the page limit;
when every fetch succeeds the fetched pages are exactly that normalized,
truncated list, in order. -/
theorem collect_sitemap_download_order (net : Net) (url : String)
    (limit : Nat) (base : Url) (hp : parseUrl url = some base)
    (hne : tryCandidates net limit (sitemapCandidates base) ≠ [])
    (hfetch : ∀ u : String, (net.pageFetch u).isSome = true) :
    ∃ pages, collectWebsitePages net url limit = Except.ok pages ∧
      pages.map Prod.fst =
        (normalizedStart url
          (tryCandidates net limit (sitemapCandidates base))).take limit := by
  refine ⟨downloadPagesSequentially net
    (normalizedStart url (tryCandidates net limit (sitemapCandidates base)))
    limit, ?_, download_all_success net limit hfetch _⟩
  simp [collectWebsitePages, hp, List.isEmpty_iff, hne]

/-- C3 counterexample: a sitemap listing exactly three URLs, none of them
the start URL, with every fetch succeeding and the limit far away: four
pages are fetched — the start URL is prepended — so the downloader does not
fetch exactly the discovered URLs. -/
theorem collect_prepends_start_url :
    (collectWebsitePages netSite "https://e.com/" 200).toOption.map
        (fun l => l.map Prod.fst) =
      some ["https://e.com/", "https://e.com/a", "https://e.com/b",
        "https://e.com/c"] ∧
    ["https://e.com/", "https://e.com/a", "https://e.com/b",
        "https://e.com/c"] ≠
      ["https://e.com/a", "https://e.com/b", "https://e.com/c"] := by decide

/-- C3 witness. -/
theorem collect_sitemap_download_order_inst :
    ∃ pages, collectWebsitePages netSite "https://e.com/" 200 =
        Except.ok pages ∧
      pages.map Prod.fst =
        (normalizedStart "https://e.com/"
          (tryCandidates netSite 200 (sitemapCandidates baseE))).take 200 :=
  collect_sitemap_download_order netSite "https://e.com/" 200 baseE
    (by decide) (by decide) (fun _ => rfl)

/- ===================== C4 lemmas ===================== -/

/-- Unfolding equation of the fuelled splitter. -/
theorem splitChunksF_succ (size ovl fuel : Nat) (s : List Char) :
    splitChunksF size ovl (fuel + 1) s =
      if s.length ≤ size then [s]
      else s.take size :: splitChunksF size ovl fuel (s.drop (size - ovl)) := rfl

/-- The splitter always produces at least one chunk. -/
theorem splitChunksF_ne_nil (size ovl : Nat) : ∀ (fuel : Nat) (s : List Char),
    splitChunksF size ovl fuel s ≠ []
  | 0, s => by simp [splitChunksF]
  | fuel + 1, s => by
    rw [splitChunksF_succ]
    split <;> simp

/-- With adequate fuel the first chunk is the `size`-prefix of the text. -/
theorem splitChunksF_head (size ovl : Nat) : ∀ (fuel : Nat) (s : List Char),
    s.length ≤ fuel + size →
    (splitChunksF size ovl fuel s).head? = some (s.take size)
  | 0, s, hf => by
    simp only [Nat.zero_add] at hf
    simp [splitChunksF, List.take_of_length_le hf]
  | fuel + 1, s, _ => by
    rw [splitChunksF_succ]
    split
    · next hle => simp [List.take_of_length_le hle]
    · simp

/-- With adequate fuel every chunk has length at most `size`. -/
theorem splitChunksF_len (size ovl : Nat) (hov : ovl < size) :
    ∀ (fuel : Nat) (s : List Char), s.length ≤ fuel + size →
    ∀ c ∈ splitChunksF size ovl fuel s, c.length ≤ size
  | 0, s, hf, c, hc => by
    simp only [Nat.zero_add] at hf
    rw [show splitChunksF size ovl 0 s = [s] from rfl] at hc
    rw [List.mem_singleton.mp hc]
    exact hf
  | fuel + 1, s, hf, c, hc => by
    rw [splitChunksF_succ] at hc
    split at hc
    · next hle =>
      rw [List.mem_singleton.mp hc]
      exact hle
    · next hgt =>
      rcases List.mem_cons.mp hc with h1 | h1
      · rw [h1]
        exact List.length_take_le _ _
      · refine splitChunksF_len size ovl hov fuel _ ?_ c h1
        simp only [List.length_drop]
        omega

/-- With adequate fuel consecutive chunks overlap in exactly `ovl`
characters: the `ovl`-suffix of each chunk is the `ovl`-prefix of the
next. -/
theorem splitChunksF_chain (size ovl : Nat) (hov : ovl < size) :
    ∀ (fuel : Nat) (s : List Char), s.length ≤ fuel + size →
    List.Chain'
      (fun a b => ovl ≤ a.length ∧ ovl ≤ b.length ∧
        a.drop (a.length - ovl) = b.take ovl)
      (splitChunksF size ovl fuel s)
  | 0, s, _ => by
    rw [show splitChunksF size ovl 0 s = [s] from rfl]
    exact List.chain'_singleton _
  | fuel + 1, s, hf => by
    rw [splitChunksF_succ]
    split
    · exact List.chain'_singleton _
    · next hgt =>
      push_neg at hgt
      have hlen2 : (s.drop (size - ovl)).length ≤ fuel + size := by
        simp only [List.length_drop]
        omega
      refine List.chain'_cons'.mpr
        ⟨?_, splitChunksF_chain size ovl hov fuel _ hlen2⟩
      intro y hy
      rw [splitChunksF_head size ovl fuel _ hlen2] at hy
      cases hy
      have hmin : min size s.length = size := Nat.min_eq_left (le_of_lt hgt)
      refine ⟨?_, ?_, ?_⟩
      · simp only [List.length_take]
        omega
      · simp only [List.length_take, List.length_drop]
        omega
      · rw [List.length_take, hmin, List.drop_take, List.take_take]
        have h1 : size - (size - ovl) = ovl := by omega
        have h2 : min ovl size = ovl := Nat.min_eq_left (le_of_lt hov)
        rw [h1, h2]

/-- With adequate fuel, reassembling the chunks with the overlaps
de-duplicated reproduces the original text. -/
theorem splitChunksF_reassemble (size ovl : Nat) (hov : ovl < size) :
    ∀ (fuel : Nat) (s : List Char), s.length ≤ fuel + size →
    reassemble ovl (splitChunksF size ovl fuel s) = s
  | 0, s, _ => by
    rw [show splitChunksF size ovl 0 s = [s] from rfl]
    simp [reassemble]
  | fuel + 1, s, hf => by
    rw [splitChunksF_succ]
    split
    · simp [reassemble]
    · next hgt =>
      push_neg at hgt
      have hlen2 : (s.drop (size - ovl)).length ≤ fuel + size := by
        simp only [List.length_drop]
        omega
      obtain ⟨h0, t, heq⟩ : ∃ h0 t,
          splitChunksF size ovl fuel (s.drop (size - ovl)) = h0 :: t := by
        cases hsp : splitChunksF size ovl fuel (s.drop (size - ovl)) with
        | nil => exact absurd hsp (splitChunksF_ne_nil size ovl fuel _)
        | cons a b => exact ⟨a, b, rfl⟩
      have hh0 : h0 = (s.drop (size - ovl)).take size := by
        have hhd := splitChunksF_head size ovl fuel (s.drop (size - ovl)) hlen2
        rw [heq] at hhd
        simpa using hhd
      have hIH := splitChunksF_reassemble size ovl hov fuel
        (s.drop (size - ovl)) hlen2
      rw [heq] at hIH
      rw [heq]
      simp only [reassemble, List.map_cons, List.flatten_cons] at hIH ⊢
      have hlenh0 : ovl ≤ h0.length := by
        rw [hh0]
        simp only [List.length_take, List.length_drop]
        omega
      have key : h0.drop ovl ++ (t.map (List.drop ovl)).flatten =
          s.drop size := by
        have hcg := congrArg (List.drop ovl) hIH
        rw [List.drop_append_of_le_length hlenh0] at hcg
        rw [hcg, List.drop_drop]
        congr 1
        omega
      rw [key, List.take_append_drop]

/-- A 2500-character text splits into exactly three chunks at size 1000 and
overlap 200 (cuts at 0, 800 and 1600). -/
theorem splitChunks_2500 (s : List Char) (h : s.length = 2500) :
    (splitChunks 1000 200 s).length = 3 := by
  have h1 : (s.drop (1000 - 200)).length = 1700 := by
    simp [List.length_drop, h]
  have h2 : ((s.drop (1000 - 200)).drop (1000 - 200)).length = 900 := by
    simp [List.length_drop, h]
  unfold splitChunks
  rw [h]
  rw [show (2500 : Nat) = 2499 + 1 from rfl, splitChunksF_succ,
    if_neg (by omega : ¬ s.length ≤ 1000)]
  rw [show (2499 : Nat) = 2498 + 1 from rfl, splitChunksF_succ,
    if_neg (by omega : ¬ (s.drop (1000 - 200)).length ≤ 1000)]
  rw [show (2498 : Nat) = 2497 + 1 from rfl, splitChunksF_succ,
    if_pos (by omega : ((s.drop (1000 - 200)).drop (1000 - 200)).length ≤ 1000)]
  rfl

/-- C4 (spec-modelled — the recursive splitter itself is library code):
with the configured chunk size 1000 and overlap 200, every chunk has length
at most 1000, each pair of consecutive chunks shares exactly 200 characters
of overlap (the 200-suffix of one is the 200-prefix of the next),
concatenating the chunks with the overlapped regions de-duplicated
reconstructs the document exactly, and any 2500-character document yields 3
chunks. -/
theorem chunk_splitter_spec (doc : List Char) :
    (∀ c ∈ splitChunks CHUNK_SIZE CHUNK_OVERLAP doc, c.length ≤ CHUNK_SIZE) ∧
    List.Chain'
      (fun a b => CHUNK_OVERLAP ≤ a.length ∧ CHUNK_OVERLAP ≤ b.length ∧
        a.drop (a.length - CHUNK_OVERLAP) = b.take CHUNK_OVERLAP)
      (splitChunks CHUNK_SIZE CHUNK_OVERLAP doc) ∧
    reassemble CHUNK_OVERLAP (splitChunks CHUNK_SIZE CHUNK_OVERLAP doc) = doc ∧
    (∀ s : List Char, s.length = 2500 →
      (splitChunks CHUNK_SIZE CHUNK_OVERLAP s).length = 3) := by
  refine ⟨?_, ?_, ?_, splitChunks_2500⟩
  · exact splitChunksF_len CHUNK_SIZE CHUNK_OVERLAP (by decide) doc.length doc
      (Nat.le_add_right _ _)
  · exact splitChunksF_chain CHUNK_SIZE CHUNK_OVERLAP (by decide) doc.length doc
      (Nat.le_add_right _ _)
  · exact splitChunksF_reassemble CHUNK_SIZE CHUNK_OVERLAP (by decide)
      doc.length doc (Nat.le_add_right _ _)

/-- C4 witness: a short document is its own single chunk, within the size
bound. -/
theorem chunk_splitter_spec_inst :
    (List.replicate 300 'a').length ≤ CHUNK_SIZE :=
  (chunk_splitter_spec (List.replicate 300 'a')).1 (List.replicate 300 'a')
    (by decide)

/- ===================== C9 ===================== -/

/-- A `filterMap` by a conditional `some` is a `filter` followed by a
`map`. -/
theorem filterMap_ite {α β : Type} (p : α → Prop) [DecidablePred p]
    (g : α → β) : ∀ l : List α,
    (l.filterMap fun a => if p a then some (g a) else none) =
      (l.filter fun a => decide (p a)).map g
  | [] => rfl
  | a :: l => by
    simp only [List.filterMap_cons, List.filter_cons]
    by_cases h : p a
    · simp [h, filterMap_ite p g l]
    · simp [h, filterMap_ite p g l]

/-- C9: during website ingestion every parsed page whose extracted
(normalized) body text is shorter than `MIN_WEBSITE_LENGTH` = 200 is
excluded from the chunk set while the pages at or above that length are
kept, in order — the selected documents are exactly the parsed documents of
the pages passing the length filter; concretely, a page with a
150-character body is parsed but contributes no documents and hence no
chunks, while a page with a 250-character body contributes its document. -/
theorem min_length_filter (pages : List (String × Html)) (org : String) :
    selectDocuments pages org =
      ((pages.filter fun p =>
          decide (MIN_WEBSITE_LENGTH ≤ (normalizeWhitespace p.2.rawBody).length)).map
        fun p => (parseHtmlToDocument p.2 p.1 org).doc) ∧
    selectDocuments [("https://e.com/p", htmlSmall)] org = [] ∧
    splitDocuments (selectDocuments [("https://e.com/p", htmlSmall)] org) = [] ∧
    selectDocuments [("https://e.com/p", htmlBig)] org =
      [(parseHtmlToDocument htmlBig "https://e.com/p" org).doc] := by
  refine ⟨?_, rfl, rfl, rfl⟩
  exact filterMap_ite
    (fun p : String × Html =>
      MIN_WEBSITE_LENGTH ≤ (parseHtmlToDocument p.2 p.1 org).bodyText.length)
    (fun p => (parseHtmlToDocument p.2 p.1 org).doc) pages

/- ===================== C10 ===================== -/

/-- C10: at the website-ingestion entry, an input URL that is empty,
all-whitespace, or unparseable even after prefixing `https://` (that is, one
`toAbsoluteUrl` rejects) yields a failure result before anything is fetched
— the result does not depend on the network at all; an input without an
http/https scheme is normalized by prefixing `https://`, and that normalized
`href` is the `url` reported in a success result. -/
theorem ingestWebsite_url_validation (net net2 : Net) (url org nsp : String) :
    (toAbsoluteUrl url = none →
      ingestWebsite net url org nsp =
        websiteFailure "A valid URL is required to scrape website content." ∧
      ingestWebsite net url org nsp = ingestWebsite net2 url org nsp) ∧
    (hasHttpScheme (jsTrim url) = false → ∀ n, toAbsoluteUrl url = some n →
      (parseUrl ("https://" ++ jsTrim url)).map Url.href = some n ∧
      ((ingestWebsite net url org nsp).success = true →
        (ingestWebsite net url org nsp).url = n)) := by
  constructor
  · intro h
    constructor <;> simp [ingestWebsite, h]
  · intro hpre n hn
    constructor
    · unfold toAbsoluteUrl at hn
      split at hn
      · exact absurd hn (by simp)
      · have hn2 : (if jsTrim url = "" then (none : Option String)
            else if hasHttpScheme (jsTrim url) = true then
              Option.map Url.href (parseUrl (jsTrim url))
            else Option.map Url.href (parseUrl ("https://" ++ jsTrim url))) =
            some n := hn
        rw [hpre] at hn2
        simp only [Bool.false_eq_true, if_false] at hn2
        split at hn2
        · exact absurd hn2 (by simp)
        · exact hn2
    · intro hsucc
      simp only [ingestWebsite, hn] at hsucc ⊢
      cases hc : collectWebsitePages net n MAX_WEBSITE_PAGES with
      | error e =>
        simp only [hc] at hsucc
        simp [websiteFailure] at hsucc
      | ok pages =>
        simp only [hc] at hsucc ⊢
        by_cases hpe : pages.isEmpty = true
        · simp [hpe, websiteFailure] at hsucc
        · simp only [hpe, Bool.false_eq_true, if_false] at hsucc ⊢
          by_cases hde : (selectDocuments pages org).isEmpty = true
          · simp [hde, websiteFailure] at hsucc
          · simp [hde] at hsucc ⊢

/-- C10 witness: a blank URL fails identically under two different
networks, and `"e.com"` is reported back as `https://e.com/` on success. -/
theorem ingestWebsite_url_validation_inst :
    ingestWebsite netSite "   " "o" "ns" = ingestWebsite netEmpty "   " "o" "ns" ∧
    (ingestWebsite netSite "e.com" "o" "ns").url = "https://e.com/" := by
  constructor
  · exact ((ingestWebsite_url_validation netSite netEmpty "   " "o" "ns").1
      (by decide)).2
  · exact ((ingestWebsite_url_validation netSite netSite "e.com" "o" "ns").2
      (by decide) "https://e.com/" (by decide)).2 (by decide)
